import Mathlib

/-!
# Verification of the kuegiBot live trading engine core

Shallow embedding of `src/kuegi_bot/trade_engine.py` (class `LiveTrading`):
the incremental bar merge (`update_bars`), account/order reconciliation
(`update_account`), the scheduling-loop trigger and lifecycle
(`run_loop`, `exit`, `__init__`), together with proofs of the spec's
testable properties.

Python floats are embedded as `Rat` (times, prices) or `Int` (bucket and
subbar timestamps, OHLCV payloads — only compared/copied here, never the
subject of numeric claims); fallible code (IndexError on `subbars[-1]`
for an empty subbar list, `self.bars[0]` on an empty store) is embedded
with `Option`, `none` meaning the Python raises.
-/

namespace KuegiBot

/-- Modelled from the spec: `Subbar` is the finer-grained sample type held by
`Bar.subbars` (class `Bar` lives in `kuegi_bot/utils/trading_classes.py`,
which is not under `src/`); per the spec's data model a subbar carries a
timestamp and OHLCV fields. -/
structure Subbar where
  tstamp : Int
  open_ : Int
  high : Int
  low : Int
  close : Int
  volume : Int
deriving DecidableEq, Repr

/-- Modelled from the spec: `Bar` (from `kuegi_bot/utils/trading_classes.py`,
not under `src/`) — a time bucket with start timestamp, OHLCV and an ordered
sequence of subbars, stored newest-first (the merge in
`LiveTrading.update_bars` reads `subbars[-1]` as the bucket's oldest sample,
the "true opening price" seed of the spec). -/
structure Bar where
  tstamp : Int
  open_ : Int
  high : Int
  low : Int
  close : Int
  volume : Int
  subbars : List Subbar
deriving DecidableEq, Repr

/-- Modelled from the spec: `Bar.add_subbar` (from
`kuegi_bot/utils/trading_classes.py`, not under `src/`): prepends the subbar
(newest-first storage, "newest ends up at the front") and folds its OHLCV
into the bar's aggregates so that "a bar's OHLCV must always be derivable
from its subbars". -/
def Bar.add_subbar (bar : Bar) (s : Subbar) : Bar :=
  { bar with
    high := max bar.high s.high
    low := min bar.low s.low
    close := s.close
    volume := bar.volume + s.volume
    subbars := s :: bar.subbars }

/-- The fresh bucket seeded from subbar `first`, as built at
`trade_engine.py:121-123`:
`Bar(tstamp=b.tstamp, open=first.open, ..., subbars=[first])`. -/
def seedBar (t : Int) (first : Subbar) : Bar :=
  { tstamp := t
    open_ := first.open_
    high := first.high
    low := first.low
    close := first.close
    volume := first.volume
    subbars := [first] }

/-- The `merge!` branch of `LiveTrading.update_bars`
(`trade_engine.py:119-134`), as a function of everything the Python reads:
the incoming bar's bucket timestamp `t`, the stored head's subbars `xs`, the
incoming bar's subbars `es`, and their respective last elements `hl`
(`self.bars[0].subbars[-1]`, the seed) and `bl` (`b.subbars[-1]`).
The first loop scans `self.bars[0].subbars[:-1]` in reverse, adding while
`sub.tstamp < b.subbars[-1].tstamp` and breaking otherwise (`takeWhile`);
the second scans `reversed(b.subbars)`, adding when
`sub.tstamp > newBar.subbars[0].tstamp` and continuing otherwise (a fold). -/
def mergeBars (t : Int) (xs es : List Subbar) (hl bl : Subbar) : Bar :=
  es.reverse.foldl
    (fun nb s => if (nb.subbars.headD hl).tstamp < s.tstamp then nb.add_subbar s else nb)
    ((xs.dropLast.reverse.takeWhile (fun s => s.tstamp < bl.tstamp)).foldl
      Bar.add_subbar (seedBar t hl))

/-- The equal-bucket branch of the `update_bars` loop
(`trade_engine.py:114-134`): the incoming bar either replaces the stored
head wholesale (matching last-subbar timestamps, `trade_engine.py:116-117`)
or is merged with it (`trade_engine.py:119-134`). `none` embeds the
IndexError raised by `subbars[-1]` on an empty subbar list. -/
def headStep (h b : Bar) : Option Bar :=
  match b.subbars.getLast?, h.subbars.getLast? with
  | some bl, some hl =>
    if bl.tstamp = hl.tstamp then some b
    else some (mergeBars b.tstamp h.subbars b.subbars hl bl)
  | _, _ => none

/-- Total version of `headStep`, returning `b` in the (never-taken under the
nonempty-subbars invariant) error cases; used for reasoning about chains of
equal-bucket steps. -/
def hstep (h b : Bar) : Bar :=
  match b.subbars.getLast?, h.subbars.getLast? with
  | some bl, some hl =>
    if bl.tstamp = hl.tstamp then b
    else mergeBars b.tstamp h.subbars b.subbars hl bl
  | _, _ => b

/-- One iteration of the `for b in reversed(new_bars)` loop of
`LiveTrading.update_bars` (`trade_engine.py:111-136`), acting on the stored
bar list (newest first): stale bars are skipped, an equal bucket goes
through `headStep`, a strictly newer bucket is inserted at the front.
`none` embeds the IndexError the Python raises when it evaluates
`self.bars[0]` on an empty store or `subbars[-1]` on an empty subbar
list. -/
def barStep (bars : List Bar) (b : Bar) : Option (List Bar) :=
  match bars with
  | [] => none
  | h :: rest =>
    if b.tstamp < h.tstamp then
      some (h :: rest)
    else if b.tstamp = h.tstamp then
      (headStep h b).map (· :: rest)
    else
      some (b :: h :: rest)

/-- The whole incremental-merge loop of `LiveTrading.update_bars`
(the `else` branch, `trade_engine.py:110-136`): the incoming batch
`new_bars` (newest first) is traversed in reverse, each bar applied to the
stored sequence by `barStep`. -/
def mergeBatch (bars newBars : List Bar) : Option (List Bar) :=
  newBars.reverse.foldlM barStep bars

/-- `LiveTrading.update_bars` (`trade_engine.py:105-136`), with the two
gateway fetches passed in as data: when fewer than 10 bars are held the
whole store is replaced by the full fetch `full` (`get_bars`); otherwise the
incremental batch `recent` (`recent_bars`) is merged in. -/
def update_bars (bars full recent : List Bar) : Option (List Bar) :=
  if bars.length < 10 then some full else mergeBatch bars recent

/-! ## Account reconciliation (`LiveTrading.update_account`) -/

/-- An order as used by `update_account`: identifier, activity flag,
executed amount and price (prices as `Rat` for Python floats;
`executed_price` is `Option` since the code checks it against `None`). -/
structure Order where
  id : String
  active : Bool
  executed_amount : Rat
  executed_price : Option Rat
deriving DecidableEq, Repr

/-- The account state owned by the engine: open-order set and append-only
history (balances are filled in place by the gateway and not modelled). -/
structure Account where
  open_orders : List Order
  order_history : List Order
deriving DecidableEq, Repr

/-- The condition under which `update_account` appends an inactive order to
the history (`trade_engine.py:97`): non-empty id that was previously open. -/
def keptInHistory (prevOpenIds : List String) (o : Order) : Bool :=
  !o.active && decide (0 < o.id.length) && prevOpenIds.contains o.id

/-- `LiveTrading.update_account` (`trade_engine.py:86-103`) with the fresh
snapshot `orders` (result of `self.exchange.get_orders()`) passed in as
data: record the previously-open ids, rebuild the open set from the active
snapshot orders, and append to history each inactive order with a non-empty,
previously-open id. -/
def update_account (account : Account) (orders : List Order) : Account :=
  let prevOpenIds := account.open_orders.map (·.id)
  { open_orders := orders.filter (·.active)
    order_history :=
      account.order_history ++ orders.filter (keptInHistory prevOpenIds) }

/-- The classification string logged at `trade_engine.py:101` for an order
that left the open set: `"executed"` when `executed_amount != 0`, else
`"canceled"`. -/
def classify (o : Order) : String :=
  if o.executed_amount ≠ 0 then "executed" else "canceled"

/-! ## Scheduling loop, lifecycle (`run_loop`, `exit`, `__init__`) -/

/-- The trigger condition of `LiveTrading.run_loop` (`trade_engine.py:171`):
`current - last > self.settings.LOOP_INTERVAL or (last < self.last_tick < current - 2)`.
Times are `Rat` (Python `time.time()` floats); the debounce window `2` is the
literal constant in the source. -/
def trigger (interval last lastTick now : Rat) : Bool :=
  decide (interval < now - last) || (decide (last < lastTick) && decide (lastTick < now - 2))

/-- Externally observable calls a loop iteration can make. -/
inductive Event where
  | connCheck
  | gatewayExit
  | fetchBars
  | fetchAccount
  | strategyTick
deriving DecidableEq, Repr

/-- The loop-relevant engine state: the `alive` flag and the `last`
executed-tick time of `run_loop`. -/
structure LoopState where
  alive : Bool
  last : Rat
deriving DecidableEq, Repr

/-- The environment one iteration observes: the current wall-clock time
`now`, the push-notification timestamp `last_tick`, and the result the
connectivity check would return. -/
structure EnvInput where
  now : Rat
  lastTick : Rat
  isOpen : Bool
deriving DecidableEq, Repr

/-- One iteration of the `while self.alive` body of `LiveTrading.run_loop`
(`trade_engine.py:165-179`): when `alive` is false the body does not run; on
a trigger, `last` is recorded, the connection is checked, and either
`exit()` runs (which calls `self.exchange.exit()` and clears `alive`) or
`handle_tick()` runs (bar fetch, account fetch, strategy call). -/
def loopIter (interval : Rat) (s : LoopState) (e : EnvInput) : LoopState × List Event :=
  if !s.alive then (s, [])
  else if trigger interval s.last e.lastTick e.now then
    let s' : LoopState := { s with last := e.now }
    if !e.isOpen then
      ({ s' with alive := false }, [Event.connCheck, Event.gatewayExit])
    else
      (s', [Event.connCheck, Event.fetchBars, Event.fetchAccount, Event.strategyTick])
  else (s, [])

/-- The loop itself, driven by a finite schedule of environment inputs;
returns the final state and every event emitted. -/
def runLoop (interval : Rat) (s : LoopState) : List EnvInput → LoopState × List Event
  | [] => (s, [])
  | e :: es =>
    let (s', evs) := loopIter interval s e
    let (s'', evs') := runLoop interval s' es
    (s'', evs ++ evs')

/-- Outcome of `LiveTrading.__init__` (`trade_engine.py:18-50`): the final
value of the `alive` field, whether an exception propagated out of the
constructor, and whether the engine can subsequently enter the run loop. -/
structure InitOutcome where
  alive : Bool
  raised : Bool
deriving DecidableEq, Repr

/-- A constructed engine reaches Running only if construction returned
normally with `alive` set. -/
def InitOutcome.entersRun (o : InitOutcome) : Bool :=
  !o.raised && o.alive

/-- `LiveTrading.__init__` (`trade_engine.py:18-50`) with each gateway /
strategy step's outcome passed in as data (`none` = that step raised):
`alive` is set to `True` up front; if `is_open()` fails the `else` branch
sets `alive = False`; otherwise the instrument fetch, cold bar fetch,
account fetch and strategy init run in order with no exception handler, so
the first failure propagates, leaving `alive` as it was (`True`). -/
def initEngine (isOpen : Bool) (instrument : Option Unit) (coldBars : Option (List Bar))
    (acctFetch : Option Account) (botInit : Option Unit) : InitOutcome :=
  if isOpen then
    match instrument, coldBars, acctFetch, botInit with
    | some _, some _, some _, some _ => { alive := true, raised := false }
    | _, _, _, _ => { alive := true, raised := true }
  else
    { alive := false, raised := false }

/-! ## Demonstration values used by the witnesses -/

/-- A concrete subbar with a given timestamp, for witnesses. -/
def demoSub (t : Int) : Subbar := ⟨t, t, t, t, t, 1⟩

/-- A concrete bar with a given bucket timestamp and subbar timestamps,
for witnesses. -/
def demoBar (t : Int) (subTs : List Int) : Bar :=
  ⟨t, 0, 0, 0, 0, 0, subTs.map demoSub⟩

/-- A concrete well-formed 10-bar store (bucket timestamps 10 down to 1),
for witnesses. -/
def demoStore : List Bar :=
  (List.range 10).map (fun i => demoBar (10 - (i : Int)) [10 - (i : Int)])

/-- A bar with an empty subbar list and a fresh bucket timestamp: the first
incremental merge inserts it untouched, the second raises on
`b.subbars[-1]`. -/
def demoEmptyBar : Bar := ⟨11, 0, 0, 0, 0, 0, []⟩

/-- A concrete order for witnesses. -/
def demoOrder (ident : String) (act : Bool) (executed : Rat) : Order :=
  { id := ident, active := act, executed_amount := executed, executed_price := some 1 }

/-- Bucket timestamps strictly decreasing from index 0 (newest-first). -/
def tsDesc (bars : List Bar) : Prop :=
  List.Chain' (fun a b => b.tstamp < a.tstamp) bars

/-- Executable check for `tsDesc`, for concrete witnesses. -/
def tsDescB : List Bar → Bool
  | [] => true
  | [_] => true
  | a :: b :: rest => decide (b.tstamp < a.tstamp) && tsDescB (b :: rest)

/-- Subbar timestamps strictly decreasing along the stored order
(newest-first), the well-formedness invariant of a bar's subbar sequence. -/
def subTsDesc (l : List Subbar) : Prop :=
  List.Chain' (fun a b => b.tstamp < a.tstamp) l

/-- Executable check for `subTsDesc`, for concrete witnesses. -/
def subTsDescB : List Subbar → Bool
  | [] => true
  | [_] => true
  | a :: b :: rest => decide (b.tstamp < a.tstamp) && subTsDescB (b :: rest)

/-- The 10-bar store used by the C1 counterexample: head bucket 20 holds
subbar timestamps `[3, 1]`. -/
def c1Store : List Bar :=
  demoBar 20 [3, 1] :: (List.range 9).map (fun i => demoBar (9 - (i : Int)) [9 - (i : Int)])

/-- The C1 counterexample batch: one bar for the same bucket 20 whose subbar
timestamps `[4, 2]` interleave with the head's `[3, 1]`. -/
def c1Batch : List Bar := [demoBar 20 [4, 2]]

/-- The subbar timestamps of the head bucket after merging `c1Batch` into
`c1Store`. -/
def c1MergedTs : List Int :=
  match mergeBatch c1Store c1Batch with
  | some (h :: _) => h.subbars.map (·.tstamp)
  | _ => []

/-- The C2 witness batch: one bar refining the head bucket of `demoStore`
with two newer subbars, forcing the merge branch. -/
def c2Batch : List Bar := [demoBar 10 [12, 11]]

/-- The store obtained by applying the incremental merge of `c2Batch` to
`demoStore` once. -/
def c2Once : List Bar :=
  match update_bars demoStore [] c2Batch with
  | some out => out
  | none => []

/-! ## Basic lemmas -/

theorem String.length_pos_of_ne (s : String) (h : s ≠ "") : 0 < s.length := by
  cases s with
  | mk data =>
    cases data with
    | nil => exact absurd rfl h
    | cons c cs => simp

theorem add_subbar_tstamp (bar : Bar) (s : Subbar) :
    (bar.add_subbar s).tstamp = bar.tstamp := rfl

theorem foldl_add_subbar_tstamp (l : List Subbar) (bar : Bar) :
    (l.foldl Bar.add_subbar bar).tstamp = bar.tstamp := by
  induction l generalizing bar with
  | nil => rfl
  | cons s l ih => simpa using ih (bar.add_subbar s)

theorem foldl_addIf_tstamp (l : List Subbar) (hl : Subbar) (nb : Bar) :
    (l.foldl
        (fun nb s => if (nb.subbars.headD hl).tstamp < s.tstamp then nb.add_subbar s else nb)
        nb).tstamp = nb.tstamp := by
  induction l generalizing nb with
  | nil => rfl
  | cons s l ih =>
    simp only [List.foldl_cons]
    rw [ih]
    split <;> rfl

theorem mergeBars_tstamp (t : Int) (xs es : List Subbar) (hl bl : Subbar) :
    (mergeBars t xs es hl bl).tstamp = t := by
  unfold mergeBars
  rw [foldl_addIf_tstamp, foldl_add_subbar_tstamp]
  rfl

/-- Replacing the head by a bar of equal bucket timestamp keeps the ordering. -/
theorem tsDesc_replace {hb nb : Bar} {rest : List Bar} (ht : nb.tstamp = hb.tstamp)
    (hd : tsDesc (hb :: rest)) : tsDesc (nb :: rest) := by
  cases rest with
  | nil => exact List.chain'_singleton nb
  | cons r rs =>
    rcases List.chain'_cons.mp hd with ⟨hr, hrest⟩
    exact List.chain'_cons.mpr ⟨by rw [ht]; exact hr, hrest⟩

/-- A successful `headStep` yields a bar for the incoming bucket
timestamp. -/
theorem headStep_tstamp {h b X : Bar} (hh : headStep h b = some X) :
    X.tstamp = b.tstamp := by
  unfold headStep at hh
  cases hbl : b.subbars.getLast? with
  | none => rw [hbl] at hh; cases hhl : h.subbars.getLast? <;> rw [hhl] at hh <;> cases hh
  | some bl =>
    cases hhl : h.subbars.getLast? with
    | none => rw [hbl, hhl] at hh; cases hh
    | some hl =>
      rw [hbl, hhl] at hh
      dsimp only at hh
      by_cases h3 : bl.tstamp = hl.tstamp
      · rw [if_pos h3] at hh; cases hh; rfl
      · rw [if_neg h3] at hh; cases hh; exact mergeBars_tstamp _ _ _ _ _

/-- `barStep` leaves the bucket timestamp ordering intact: each branch either
keeps the list, replaces the head by a bar of equal timestamp, or prepends a
strictly newer bar. -/
theorem barStep_desc {bars bars' : List Bar} {b : Bar} (hd : tsDesc bars)
    (h : barStep bars b = some bars') : tsDesc bars' := by
  cases bars with
  | nil => simp [barStep] at h
  | cons hb rest =>
    simp only [barStep] at h
    by_cases h1 : b.tstamp < hb.tstamp
    · rw [if_pos h1] at h
      cases h
      exact hd
    · rw [if_neg h1] at h
      by_cases h2 : b.tstamp = hb.tstamp
      · rw [if_pos h2] at h
        cases hH : headStep hb b with
        | none => rw [hH] at h; cases h
        | some H1 =>
          rw [hH] at h
          simp only [Option.map_some'] at h
          cases h
          exact tsDesc_replace (by rw [headStep_tstamp hH]; exact h2) hd
      · rw [if_neg h2] at h
        cases h
        have hgt : hb.tstamp < b.tstamp := by
          rcases lt_trichotomy b.tstamp hb.tstamp with hx | hx | hx
          · exact absurd hx h1
          · exact absurd hx h2
          · exact hx
        exact List.chain'_cons.mpr ⟨hgt, hd⟩

theorem tsDesc_iff (bars : List Bar) : tsDesc bars ↔ tsDescB bars = true := by
  induction bars with
  | nil => simp [tsDesc, tsDescB]
  | cons a rest ih =>
    cases rest with
    | nil => simp [tsDesc, tsDescB]
    | cons b rs =>
      rw [tsDesc, List.chain'_cons]
      constructor
      · rintro ⟨h1, h2⟩
        simp only [tsDescB, Bool.and_eq_true, decide_eq_true_eq]
        exact ⟨h1, ih.mp h2⟩
      · intro h
        simp only [tsDescB, Bool.and_eq_true, decide_eq_true_eq] at h
        exact ⟨h.1, ih.mpr h.2⟩

theorem foldlM_barStep_desc {L bars : List Bar} {out : List Bar} (hd : tsDesc bars)
    (h : L.foldlM barStep bars = some out) : tsDesc out := by
  induction L generalizing bars with
  | nil => cases h; exact hd
  | cons b L ih =>
    rw [List.foldlM_cons] at h
    cases hstep : barStep bars b with
    | none => rw [hstep] at h; cases h
    | some bars' =>
      rw [hstep] at h
      exact ih (barStep_desc hd hstep) h

/-! ## Claim theorems: reconciliation, dispatch, scheduler, lifecycle -/

/-- C4: `update_bars` replaces the whole store with the full fetch exactly
when fewer than 10 bars are held, and otherwise performs only the
incremental merge of the recent batch. -/
theorem update_bars_cold_start_dispatch (bars full recent : List Bar) :
    (bars.length < 10 → update_bars bars full recent = some full) ∧
    (10 ≤ bars.length → update_bars bars full recent = mergeBatch bars recent) := by
  constructor
  · intro h; simp [update_bars, h]
  · intro h; simp [update_bars, Nat.not_lt.mpr h]

/-- Witness for C4: a cold start holding 3 bars performs the full fetch; a
10-bar store performs the incremental merge. -/
theorem update_bars_cold_start_dispatch_witness :
    update_bars [demoBar 3 [3], demoBar 2 [2], demoBar 1 [1]] [demoBar 5 [5]] [] =
      some [demoBar 5 [5]] ∧
    update_bars demoStore [demoBar 5 [5]] [] = mergeBatch demoStore [] :=
  ⟨(update_bars_cold_start_dispatch [demoBar 3 [3], demoBar 2 [2], demoBar 1 [1]]
      [demoBar 5 [5]] []).1 (by decide),
   (update_bars_cold_start_dispatch demoStore [demoBar 5 [5]] []).2 (by decide)⟩

/-- C3: if the stored bucket timestamps are strictly decreasing from index 0
and the incremental merge of a batch succeeds, the resulting store's bucket
timestamps are still strictly decreasing. -/
theorem mergeBatch_bucket_monotonic {bars batch out : List Bar} (hd : tsDesc bars)
    (h : mergeBatch bars batch = some out) : tsDesc out :=
  foldlM_barStep_desc hd h

/-- Witness for C3: a concrete descending 10-bar store merged with a
concrete gap-fill batch stays strictly descending. -/
theorem mergeBatch_bucket_monotonic_witness :
    tsDesc demoStore ∧
    mergeBatch demoStore [demoBar 12 [12], demoBar 11 [11]] =
      some (demoBar 12 [12] :: demoBar 11 [11] :: demoStore) ∧
    tsDesc (demoBar 12 [12] :: demoBar 11 [11] :: demoStore) := by
  have h : mergeBatch demoStore [demoBar 12 [12], demoBar 11 [11]] =
      some (demoBar 12 [12] :: demoBar 11 [11] :: demoStore) := by decide
  exact ⟨(tsDesc_iff demoStore).mpr (by decide), h,
    mergeBatch_bucket_monotonic ((tsDesc_iff demoStore).mpr (by decide)) h⟩

/-- C5: in a reconciliation pass, every snapshot order that is inactive,
has a non-empty id, and whose id was previously open is appended to the
history exactly once per snapshot occurrence, and its logged classification
is `"executed"` (a fill) precisely when its executed amount is non-zero. -/
theorem update_account_completeness (account : Account) (orders : List Order) (o : Order)
    (hact : o.active = false) (hid : o.id ≠ "")
    (hprev : o.id ∈ account.open_orders.map (·.id)) :
    (update_account account orders).order_history.count o
        = account.order_history.count o + orders.count o ∧
    (classify o = "executed" ↔ o.executed_amount ≠ 0) := by
  constructor
  · have hkept : keptInHistory (account.open_orders.map (·.id)) o = true := by
      simp [keptInHistory, hact, String.length_pos_of_ne o.id hid, hprev]
    simp [update_account, List.count_append, List.count_filter hkept]
  · unfold classify
    split
    · next hne => exact iff_of_true rfl hne
    · next hz => exact iff_of_false (by decide) hz

/-- Witness for C5: a concrete inactive, previously-open order with non-zero
executed amount is appended once and classified as executed. -/
theorem update_account_completeness_witness :
    (update_account
        { open_orders := [demoOrder "a1" true 0], order_history := [] }
        [demoOrder "a1" false 3]).order_history.count (demoOrder "a1" false 3)
      = ([] : List Order).count (demoOrder "a1" false 3)
          + [demoOrder "a1" false 3].count (demoOrder "a1" false 3) ∧
    (classify (demoOrder "a1" false 3) = "executed" ↔
      (demoOrder "a1" false 3).executed_amount ≠ 0) :=
  update_account_completeness
    { open_orders := [demoOrder "a1" true 0], order_history := [] }
    [demoOrder "a1" false 3] (demoOrder "a1" false 3)
    (by decide) (by decide) (by decide)

/-- C6: an order with an empty id, or whose id was not previously open, is
never appended to the history by a reconciliation pass. -/
theorem update_account_safety (account : Account) (orders : List Order) (o : Order)
    (h : o.id = "" ∨ o.id ∉ account.open_orders.map (·.id)) :
    (update_account account orders).order_history.count o
      = account.order_history.count o := by
  have hkept : keptInHistory (account.open_orders.map (·.id)) o = false := by
    rcases h with h | h
    · simp [keptInHistory, h]
    · simp [keptInHistory, h]
  have : o ∉ orders.filter (keptInHistory (account.open_orders.map (·.id))) := by
    intro hmem
    exact absurd ((List.mem_filter.mp hmem).2) (by simp [hkept])
  simp [update_account, List.count_append, List.count_eq_zero_of_not_mem this]

/-- Witness for C6: a concrete inactive order with an id never seen open is
dropped from history. -/
theorem update_account_safety_witness :
    (update_account
        { open_orders := [demoOrder "a1" true 0], order_history := [] }
        [demoOrder "zz" false 3]).order_history.count (demoOrder "zz" false 3)
      = ([] : List Order).count (demoOrder "zz" false 3) :=
  update_account_safety
    { open_orders := [demoOrder "a1" true 0], order_history := [] }
    [demoOrder "zz" false 3] (demoOrder "zz" false 3) (Or.inr (by decide))

/-- C10: an id that was previously open but is absent from the fresh
snapshot disappears without trace: it is no longer in the open-order set and
the history entries with that id are unchanged. -/
theorem update_account_vanished_order (account : Account) (orders : List Order)
    (ident : String) (hprev : ident ∈ account.open_orders.map (·.id))
    (habs : ∀ o ∈ orders, o.id ≠ ident) :
    (update_account account orders).open_orders.filter
        (fun o => decide (o.id = ident)) = [] ∧
    (update_account account orders).order_history.filter
        (fun o => decide (o.id = ident))
      = account.order_history.filter (fun o => decide (o.id = ident)) := by
  constructor
  · refine List.filter_eq_nil_iff.mpr ?_
    intro o hmem
    have : o ∈ orders := (List.mem_filter.mp hmem).1
    simp [habs o this]
  · have hnil : (orders.filter (keptInHistory (account.open_orders.map (·.id)))).filter
        (fun o => decide (o.id = ident)) = [] := by
      refine List.filter_eq_nil_iff.mpr ?_
      intro o hmem
      have : o ∈ orders := (List.mem_filter.mp hmem).1
      simp [habs o this]
    simp [update_account, List.filter_append, hnil]

/-- Witness for C10: a previously-open order absent from the snapshot leaves
neither an open-set entry nor a history entry. -/
theorem update_account_vanished_order_witness :
    (update_account
        { open_orders := [demoOrder "a1" true 0], order_history := [] }
        [demoOrder "b2" true 0]).open_orders.filter
        (fun o => decide (o.id = "a1")) = [] ∧
    (update_account
        { open_orders := [demoOrder "a1" true 0], order_history := [] }
        [demoOrder "b2" true 0]).order_history.filter
        (fun o => decide (o.id = "a1"))
      = ([] : List Order).filter (fun o => decide (o.id = "a1")) :=
  update_account_vanished_order
    { open_orders := [demoOrder "a1" true 0], order_history := [] }
    [demoOrder "b2" true 0] "a1" (by decide) (by decide)

/-- C8: with `loop_interval = 5`, last execution at 0 and a push recorded at
3, no tick fires at any evaluation time before 5; in general the loop body
runs exactly when `now - last > interval` or `last < last_tick < now - 2`. -/
theorem run_loop_trigger (now : Rat) (hnow : now < 5) :
    trigger 5 0 3 now = false ∧
    ∀ i l t n : Rat, (trigger i l t n = true ↔ (i < n - l ∨ (l < t ∧ t < n - 2))) := by
  constructor
  · have h1 : (decide ((5 : Rat) < now)) = false := decide_eq_false (by linarith)
    have h2 : (decide ((3 : Rat) < now - 2)) = false := decide_eq_false (by linarith)
    simp [trigger, h1, h2]
  · intro i l t n
    simp only [trigger, Bool.or_eq_true, Bool.and_eq_true, decide_eq_true_eq]

/-- Witness for C8: at time 4 (before 5) the trigger is false, and the
general characterization instantiated at `interval=5, last=0, tick=3,
now=6`. -/
theorem run_loop_trigger_witness :
    trigger 5 0 3 4 = false ∧
    (trigger 5 0 3 6 = true ↔ ((5 : Rat) < 6 - 0 ∨ ((0 : Rat) < 3 ∧ (3 : Rat) < 6 - 2))) :=
  ⟨(run_loop_trigger 4 (by norm_num)).1, (run_loop_trigger 4 (by norm_num)).2 5 0 3 6⟩

/-- C9: a triggered iteration whose connectivity check returns closed leaves
the engine stopped (`alive = false`), and a stopped engine's loop performs no
work at all: it emits no events and never changes state again. -/
theorem run_loop_stops_on_closed_connection (interval : Rat) (s : LoopState) (e : EnvInput)
    (halive : s.alive = true) (htrig : trigger interval s.last e.lastTick e.now = true)
    (hclosed : e.isOpen = false) :
    (loopIter interval s e).1.alive = false ∧
    ∀ (es : List EnvInput) (s' : LoopState), s'.alive = false →
      runLoop interval s' es = (s', []) := by
  constructor
  · simp [loopIter, halive, htrig, hclosed]
  · intro es
    induction es with
    | nil => intro s' h; rfl
    | cons e' es ih =>
      intro s' h
      have hiter : loopIter interval s' e' = (s', []) := by
        simp [loopIter, h]
      simp [runLoop, hiter, ih s' h]

/-- Witness for C9: a concrete closed-connection iteration stops the engine,
and the stopped engine ignores a further iteration. -/
theorem run_loop_stops_on_closed_connection_witness :
    (loopIter 5 { alive := true, last := 0 } { now := 6, lastTick := 0, isOpen := false }).1.alive
      = false ∧
    runLoop 5 { alive := false, last := 6 } [{ now := 7, lastTick := 0, isOpen := true }]
      = ({ alive := false, last := 6 }, []) :=
  ⟨(run_loop_stops_on_closed_connection 5 { alive := true, last := 0 }
      { now := 6, lastTick := 0, isOpen := false } rfl (by norm_num [trigger]) rfl).1,
   (run_loop_stops_on_closed_connection 5 { alive := true, last := 0 }
      { now := 6, lastTick := 0, isOpen := false } rfl (by norm_num [trigger]) rfl).2
      [{ now := 7, lastTick := 0, isOpen := true }] { alive := false, last := 6 } rfl⟩

/-- C7 counterexample: when the instrument fetch raises during
initialization, the exception propagates out of the constructor with the
`alive` field still `true` — the claim's "ends in Stopped with
`alive = false`" is false on the code. -/
theorem init_failure_counterexample :
    (initEngine true none (some []) (some { open_orders := [], order_history := [] })
        (some ())).raised = true ∧
    (initEngine true none (some []) (some { open_orders := [], order_history := [] })
        (some ())).alive = true := by
  decide

/-- C7 (amended): a failed connectivity check at startup leaves
`alive = false` without raising; an exception in any later initialization
step (instrument, cold bars, account, strategy init) propagates with `alive`
left `true`; in either case the engine never enters the run loop. -/
theorem init_failure_behavior (isOpen : Bool) (instr : Option Unit)
    (coldBars : Option (List Bar)) (acct : Option Account) (bot : Option Unit) :
    (isOpen = false →
      initEngine isOpen instr coldBars acct bot = { alive := false, raised := false }) ∧
    (isOpen = true → (instr = none ∨ coldBars = none ∨ acct = none ∨ bot = none) →
      (initEngine isOpen instr coldBars acct bot).raised = true ∧
      (initEngine isOpen instr coldBars acct bot).alive = true ∧
      (initEngine isOpen instr coldBars acct bot).entersRun = false) := by
  constructor
  · intro h; simp [initEngine, h]
  · intro hopen hfail
    have : ¬(∃ a b c d, instr = some a ∧ coldBars = some b ∧ acct = some c ∧ bot = some d) := by
      rintro ⟨a, b, c, d, ha, hb, hc, hd⟩
      rcases hfail with h | h | h | h <;> simp_all
    cases instr <;> cases coldBars <;> cases acct <;> cases bot <;>
      simp [initEngine, hopen, InitOutcome.entersRun] at this ⊢

/-- Witness for C7 (amended): concrete closed-gateway and failed-instrument
initializations. -/
theorem init_failure_behavior_witness :
    initEngine false none none none none = { alive := false, raised := false } ∧
    ((initEngine true none (some []) (some { open_orders := [], order_history := [] })
        (some ())).raised = true ∧
      (initEngine true none (some []) (some { open_orders := [], order_history := [] })
        (some ())).alive = true ∧
      (initEngine true none (some []) (some { open_orders := [], order_history := [] })
        (some ())).entersRun = false) :=
  ⟨(init_failure_behavior false none none none none).1 rfl,
   (init_failure_behavior true none (some [])
      (some { open_orders := [], order_history := [] }) (some ())).2 rfl (Or.inl rfl)⟩

/-! ## The bucket merge: subbar-level characterization (C1) -/

theorem subTsDesc_iff (l : List Subbar) : subTsDesc l ↔ subTsDescB l = true := by
  induction l with
  | nil => simp [subTsDesc, subTsDescB]
  | cons a rest ih =>
    cases rest with
    | nil => simp [subTsDesc, subTsDescB]
    | cons b rs =>
      rw [subTsDesc, List.chain'_cons]
      constructor
      · rintro ⟨h1, h2⟩
        simp only [subTsDescB, Bool.and_eq_true, decide_eq_true_eq]
        exact ⟨h1, ih.mp h2⟩
      · intro h
        simp only [subTsDescB, Bool.and_eq_true, decide_eq_true_eq] at h
        exact ⟨h.1, ih.mpr h.2⟩

theorem subTsDesc_pairwise (l : List Subbar) :
    subTsDesc l ↔ List.Pairwise (fun a b => b.tstamp < a.tstamp) l := by
  haveI : IsTrans Subbar (fun a b => b.tstamp < a.tstamp) :=
    ⟨fun a b c h1 h2 => lt_trans h2 h1⟩
  exact List.chain'_iff_pairwise

theorem foldl_add_subbar_subbars (l : List Subbar) (nb : Bar) :
    (l.foldl Bar.add_subbar nb).subbars = l.reverse ++ nb.subbars := by
  induction l generalizing nb with
  | nil => simp
  | cons s l ih =>
    simp only [List.foldl_cons, List.reverse_cons, List.append_assoc]
    rw [ih]
    simp [Bar.add_subbar]

theorem asc_takeWhile_eq_filter (l : List Subbar) (β : Int)
    (hasc : List.Pairwise (fun a b => a.tstamp < b.tstamp) l) :
    l.takeWhile (fun s => decide (s.tstamp < β)) = l.filter (fun s => decide (s.tstamp < β)) := by
  induction l with
  | nil => rfl
  | cons a l ih =>
    rcases List.pairwise_cons.mp hasc with ⟨ha, hl⟩
    by_cases h : a.tstamp < β
    · simp [List.takeWhile_cons, List.filter_cons, h, ih hl]
    · simp only [List.takeWhile_cons, List.filter_cons, h]
      simp only [decide_eq_true_eq, if_neg h]
      symm
      refine List.filter_eq_nil_iff.mpr ?_
      intro x hx
      simp only [decide_eq_true_eq]
      intro hxβ
      have h1 : β ≤ a.tstamp := not_lt.mp h
      have h2 : a.tstamp < x.tstamp := ha x hx
      omega

theorem foldl_addIf_all (l : List Subbar) (hl' : Subbar) (acc : Bar)
    (hasc : List.Pairwise (fun a b => a.tstamp < b.tstamp) l)
    (hgt : ∀ a ∈ l, (acc.subbars.headD hl').tstamp < a.tstamp) :
    (l.foldl
        (fun nb s => if (nb.subbars.headD hl').tstamp < s.tstamp then nb.add_subbar s else nb)
        acc).subbars = l.reverse ++ acc.subbars := by
  induction l generalizing acc with
  | nil => simp
  | cons a l ih =>
    rcases List.pairwise_cons.mp hasc with ⟨ha, hl⟩
    simp only [List.foldl_cons]
    rw [if_pos (hgt a (List.mem_cons_self a l))]
    have hsub : (acc.add_subbar a).subbars = a :: acc.subbars := rfl
    rw [ih (acc.add_subbar a) hl (by intro x hx; rw [hsub]; simpa using ha x hx)]
    simp [hsub]

/-- On a strictly descending list whose last element is `b`, every element's
timestamp is at least `b`'s. -/
theorem desc_mem_ge_last {l : List Subbar} {b : Subbar}
    (hd : List.Pairwise (fun a b => b.tstamp < a.tstamp) l)
    (hb : l.getLast? = some b) : ∀ a ∈ l, b.tstamp ≤ a.tstamp := by
  intro a ha
  have heq : l.dropLast ++ [b] = l := List.dropLast_append_getLast? b hb
  rw [← heq] at ha hd
  rcases List.mem_append.mp ha with h | h
  · exact le_of_lt ((List.pairwise_append.mp hd).2.2 a h b (List.mem_singleton_self b))
  · rw [List.mem_singleton.mp h]

/-- The heart of the bucket merge: under the data-model invariants
(strictly descending subbars on both sides, the head's oldest subbar older
than the incoming bar's oldest), the merged subbar list is exactly the
incoming bar's subbars followed by the head's subbars that are older than
the incoming bar's oldest one. -/
theorem mergeBars_subbars_eq (t : Int) (xs es : List Subbar) (hl bl : Subbar)
    (hxl : xs.getLast? = some hl) (hel : es.getLast? = some bl)
    (hxd : subTsDesc xs) (hed : subTsDesc es)
    (hold : hl.tstamp < bl.tstamp) :
    (mergeBars t xs es hl bl).subbars
      = es ++ xs.filter (fun s => decide (s.tstamp < bl.tstamp)) := by
  have hxd' := (subTsDesc_pairwise xs).mp hxd
  have hed' := (subTsDesc_pairwise es).mp hed
  have hxseq : xs.dropLast ++ [hl] = xs := List.dropLast_append_getLast? hl hxl
  have hdldesc : List.Pairwise (fun a b => b.tstamp < a.tstamp) xs.dropLast :=
    hxd'.sublist (List.dropLast_sublist xs)
  have hdlasc : List.Pairwise (fun a b => a.tstamp < b.tstamp) xs.dropLast.reverse := by
    rw [List.pairwise_reverse]
    exact hdldesc
  -- the seed-and-older-subbars loop produces exactly the filtered head subbars
  have hbase : ((xs.dropLast.reverse.takeWhile (fun s => decide (s.tstamp < bl.tstamp))).foldl
      Bar.add_subbar (seedBar t hl)).subbars
      = xs.filter (fun s => decide (s.tstamp < bl.tstamp)) := by
    rw [foldl_add_subbar_subbars]
    rw [asc_takeWhile_eq_filter xs.dropLast.reverse bl.tstamp hdlasc]
    rw [List.filter_reverse, List.reverse_reverse]
    conv_rhs => rw [← hxseq]
    rw [List.filter_append]
    simp [seedBar, List.filter_cons, hold]
  -- every incoming subbar is strictly newer than the current merged head
  have hesasc : List.Pairwise (fun a b => a.tstamp < b.tstamp) es.reverse := by
    rw [List.pairwise_reverse]
    exact hed'
  have hheadlt : ∀ c, ((xs.filter (fun s => decide (s.tstamp < bl.tstamp))).headD c).tstamp
      < bl.tstamp := by
    intro c
    cases hf : xs.filter (fun s => decide (s.tstamp < bl.tstamp)) with
    | nil =>
      exfalso
      have hmem : hl ∈ xs.filter (fun s => decide (s.tstamp < bl.tstamp)) := by
        rw [List.mem_filter]
        refine ⟨?_, by simpa using hold⟩
        rw [← hxseq]
        exact List.mem_append.mpr (Or.inr (List.mem_singleton_self hl))
      rw [hf] at hmem
      exact absurd hmem (List.not_mem_nil hl)
    | cons d ds =>
      have hmem : d ∈ xs.filter (fun s => decide (s.tstamp < bl.tstamp)) := by
        rw [hf]
        exact List.mem_cons_self d ds
      simpa using (List.mem_filter.mp hmem).2
  have hall : ∀ a ∈ es.reverse,
      ((((xs.dropLast.reverse.takeWhile (fun s => decide (s.tstamp < bl.tstamp))).foldl
        Bar.add_subbar (seedBar t hl)).subbars).headD hl).tstamp < a.tstamp := by
    intro a ha
    rw [hbase]
    have h2 : bl.tstamp ≤ a.tstamp := desc_mem_ge_last hed' hel a (List.mem_reverse.mp ha)
    have h1 := hheadlt hl
    omega
  unfold mergeBars
  rw [foldl_addIf_all es.reverse hl _ hesasc hall, List.reverse_reverse, hbase]

/-- C1 counterexample: merging two overlapping partial fetches of bucket 20
(stored head subbars at timestamps `[3, 1]`, incoming subbars at `[4, 2]`,
equal bucket timestamps, differing last-subbar timestamps) loses the head's
subbar at timestamp 3, so the merged subbar set is not the union of the two
inputs keyed by timestamp. -/
theorem no_subbar_loss_counterexample :
    c1MergedTs = [4, 2, 1] ∧
    (3 : Int) ∈ (demoBar 20 [3, 1]).subbars.map (·.tstamp) ∧
    (3 : Int) ∉ c1MergedTs := by
  decide

/-- C1 (amended): when both subbar sequences are strictly descending, the
head's oldest subbar is strictly older than the incoming bar's oldest, and
every head subbar at or after the incoming bar's oldest timestamp also
occurs among the incoming subbars (overlapping partial fetches of the same
bucket agree on the overlap), the merged bucket's subbar timestamps are
exactly the union of the two inputs' subbar timestamps, strictly descending
and duplicate-free. -/
theorem no_subbar_loss (t : Int) (xs es : List Subbar) (hl bl : Subbar)
    (hxl : xs.getLast? = some hl) (hel : es.getLast? = some bl)
    (hxd : subTsDesc xs) (hed : subTsDesc es)
    (hold : hl.tstamp < bl.tstamp)
    (hcover : ∀ s ∈ xs, bl.tstamp ≤ s.tstamp → s.tstamp ∈ es.map (·.tstamp)) :
    (∀ u : Int, u ∈ (mergeBars t xs es hl bl).subbars.map (·.tstamp) ↔
        (u ∈ xs.map (·.tstamp) ∨ u ∈ es.map (·.tstamp))) ∧
    List.Pairwise (fun a b : Int => b < a) ((mergeBars t xs es hl bl).subbars.map (·.tstamp)) ∧
    ((mergeBars t xs es hl bl).subbars.map (·.tstamp)).Nodup := by
  have hmain := mergeBars_subbars_eq t xs es hl bl hxl hel hxd hed hold
  have hxd' := (subTsDesc_pairwise xs).mp hxd
  have hed' := (subTsDesc_pairwise es).mp hed
  have hdesc : List.Pairwise (fun a b : Subbar => b.tstamp < a.tstamp)
      (es ++ xs.filter (fun s => decide (s.tstamp < bl.tstamp))) := by
    rw [List.pairwise_append]
    refine ⟨hed', hxd'.sublist (List.filter_sublist xs), ?_⟩
    intro a ha b hb
    have h1 : b.tstamp < bl.tstamp := by simpa using (List.mem_filter.mp hb).2
    have h2 : bl.tstamp ≤ a.tstamp := desc_mem_ge_last hed' hel a ha
    omega
  have hmapdesc : List.Pairwise (fun a b : Int => b < a)
      ((mergeBars t xs es hl bl).subbars.map (·.tstamp)) := by
    rw [hmain]
    exact List.pairwise_map.mpr hdesc
  refine ⟨?_, hmapdesc, ?_⟩
  · intro u
    rw [hmain]
    simp only [List.map_append, List.mem_append, List.mem_map]
    constructor
    · rintro (⟨s, hs, rfl⟩ | ⟨s, hs, rfl⟩)
      · exact Or.inr ⟨s, hs, rfl⟩
      · exact Or.inl ⟨s, (List.mem_filter.mp hs).1, rfl⟩
    · rintro (⟨s, hs, rfl⟩ | ⟨s, hs, rfl⟩)
      · by_cases hlt : s.tstamp < bl.tstamp
        · exact Or.inr ⟨s, List.mem_filter.mpr ⟨hs, by simpa using hlt⟩, rfl⟩
        · have := hcover s hs (not_lt.mp hlt)
          rcases List.mem_map.mp this with ⟨s', hs', heq⟩
          exact Or.inl ⟨s', hs', heq⟩
      · exact Or.inl ⟨s, hs, rfl⟩
  · exact List.Pairwise.imp (fun h => (ne_of_lt h).symm) hmapdesc

/-- Witness for C1 (amended): stored head subbars at timestamps
`[5, 4, 3, 1]` merged with incoming subbars `[7, 6, 5, 4]` (agreeing on the
overlap `{5, 4}`): timestamp 3 survives, the result is descending and
duplicate-free. -/
theorem no_subbar_loss_witness :
    ((3 : Int) ∈ (mergeBars 20 [demoSub 5, demoSub 4, demoSub 3, demoSub 1]
        [demoSub 7, demoSub 6, demoSub 5, demoSub 4] (demoSub 1)
        (demoSub 4)).subbars.map (·.tstamp) ↔
      ((3 : Int) ∈ ([demoSub 5, demoSub 4, demoSub 3, demoSub 1].map (·.tstamp)) ∨
        (3 : Int) ∈ ([demoSub 7, demoSub 6, demoSub 5, demoSub 4].map (·.tstamp)))) ∧
    List.Pairwise (fun a b : Int => b < a)
      ((mergeBars 20 [demoSub 5, demoSub 4, demoSub 3, demoSub 1]
        [demoSub 7, demoSub 6, demoSub 5, demoSub 4] (demoSub 1)
        (demoSub 4)).subbars.map (·.tstamp)) ∧
    ((mergeBars 20 [demoSub 5, demoSub 4, demoSub 3, demoSub 1]
        [demoSub 7, demoSub 6, demoSub 5, demoSub 4] (demoSub 1)
        (demoSub 4)).subbars.map (·.tstamp)).Nodup := by
  have h := no_subbar_loss 20 [demoSub 5, demoSub 4, demoSub 3, demoSub 1]
    [demoSub 7, demoSub 6, demoSub 5, demoSub 4] (demoSub 1) (demoSub 4)
    (by decide) (by decide)
    ((subTsDesc_iff [demoSub 5, demoSub 4, demoSub 3, demoSub 1]).mpr (by decide))
    ((subTsDesc_iff [demoSub 7, demoSub 6, demoSub 5, demoSub 4]).mpr (by decide))
    (by decide) (by decide)
  exact ⟨h.1 3, h.2.1, h.2.2⟩

/-! ## Merge idempotence (C2): step invariants -/

theorem exists_getLast {α : Type} {l : List α} (h : l ≠ []) : ∃ a, l.getLast? = some a := by
  cases hl : l.getLast? with
  | none => exact absurd (List.getLast?_eq_none_iff.mp hl) h
  | some a => exact ⟨a, rfl⟩

theorem getLast_ne_nil {α : Type} {l : List α} {a : α} (h : l.getLast? = some a) : l ≠ [] := by
  intro hn
  rw [hn] at h
  cases h

theorem headStep_eq_some {h b : Bar} {bl hl : Subbar}
    (hbl : b.subbars.getLast? = some bl) (hhl : h.subbars.getLast? = some hl) :
    headStep h b = some (hstep h b) := by
  unfold headStep hstep
  rw [hbl, hhl]
  dsimp only
  split <;> rfl

theorem hstep_replace_eq {h b : Bar} {bl hl : Subbar}
    (hbl : b.subbars.getLast? = some bl) (hhl : h.subbars.getLast? = some hl)
    (heq : bl.tstamp = hl.tstamp) : hstep h b = b := by
  unfold hstep
  rw [hbl, hhl]
  dsimp only
  rw [if_pos heq]

theorem hstep_merge_eq {h b : Bar} {bl hl : Subbar}
    (hbl : b.subbars.getLast? = some bl) (hhl : h.subbars.getLast? = some hl)
    (hne : bl.tstamp ≠ hl.tstamp) :
    hstep h b = mergeBars b.tstamp h.subbars b.subbars hl bl := by
  unfold hstep
  rw [hbl, hhl]
  dsimp only
  rw [if_neg hne]

theorem hstep_tstamp (h b : Bar) : (hstep h b).tstamp = b.tstamp := by
  unfold hstep
  cases hbl : b.subbars.getLast? with
  | none => rfl
  | some bl =>
    cases hhl : h.subbars.getLast? with
    | none => rfl
    | some hl =>
      dsimp only
      split
      · rfl
      · exact mergeBars_tstamp _ _ _ _ _

theorem foldl_addIf_shape (l : List Subbar) (hl' : Subbar) (acc : Bar) :
    ∃ A, (l.foldl
        (fun nb s => if (nb.subbars.headD hl').tstamp < s.tstamp then nb.add_subbar s else nb)
        acc).subbars = A ++ acc.subbars ∧
      ∀ a ∈ A, (acc.subbars.headD hl').tstamp < a.tstamp := by
  induction l generalizing acc with
  | nil => exact ⟨[], rfl, by simp⟩
  | cons s l ih =>
    simp only [List.foldl_cons]
    by_cases hc : (acc.subbars.headD hl').tstamp < s.tstamp
    · rw [if_pos hc]
      obtain ⟨A1, hA1, hgt1⟩ := ih (acc.add_subbar s)
      have hsub : (acc.add_subbar s).subbars = s :: acc.subbars := rfl
      refine ⟨A1 ++ [s], ?_, ?_⟩
      · rw [hA1, hsub]
        simp
      · intro a ha
        rcases List.mem_append.mp ha with hmem | hmem
        · have := hgt1 a hmem
          rw [hsub] at this
          simp only [List.headD_cons] at this
          omega
        · rw [List.mem_singleton.mp hmem]
          exact hc
    · rw [if_neg hc]
      exact ih acc

theorem mergeBars_subbars_split (t : Int) (xs es : List Subbar) (hl bl : Subbar) :
    ∃ A, (mergeBars t xs es hl bl).subbars
        = A ++ ((xs.dropLast.reverse.takeWhile (fun s => decide (s.tstamp < bl.tstamp))).reverse
            ++ [hl]) := by
  unfold mergeBars
  obtain ⟨A, hA, _⟩ := foldl_addIf_shape es.reverse hl
    ((xs.dropLast.reverse.takeWhile (fun s => decide (s.tstamp < bl.tstamp))).foldl
      Bar.add_subbar (seedBar t hl))
  refine ⟨A, ?_⟩
  rw [hA, foldl_add_subbar_subbars]
  rfl

theorem mergeBars_getLast (t : Int) (xs es : List Subbar) (hl bl : Subbar) :
    (mergeBars t xs es hl bl).subbars.getLast? = some hl := by
  obtain ⟨A, hA⟩ := mergeBars_subbars_split t xs es hl bl
  rw [hA, ← List.append_assoc, List.getLast?_concat]

theorem mergeBars_ne_nil (t : Int) (xs es : List Subbar) (hl bl : Subbar) :
    (mergeBars t xs es hl bl).subbars ≠ [] :=
  getLast_ne_nil (mergeBars_getLast t xs es hl bl)

theorem hstep_lastTs {h b : Bar} {bl hl : Subbar}
    (hbl : b.subbars.getLast? = some bl) (hhl : h.subbars.getLast? = some hl) :
    ∃ xl, (hstep h b).subbars.getLast? = some xl ∧ xl.tstamp = hl.tstamp := by
  by_cases heq : bl.tstamp = hl.tstamp
  · rw [hstep_replace_eq hbl hhl heq]
    exact ⟨bl, hbl, heq⟩
  · rw [hstep_merge_eq hbl hhl heq]
    exact ⟨hl, mergeBars_getLast _ _ _ _ _, rfl⟩

theorem hstep_foldl_lastTs (ms : List Bar) : ∀ (X : Bar) (sl : Subbar),
    X.subbars.getLast? = some sl → (∀ x ∈ ms, x.subbars ≠ []) →
    ∃ sl', (ms.foldl hstep X).subbars.getLast? = some sl' ∧ sl'.tstamp = sl.tstamp := by
  induction ms with
  | nil => exact fun X sl hX _ => ⟨sl, hX, rfl⟩
  | cons e ms ih =>
    intro X sl hX hne
    obtain ⟨bl, hbl⟩ := exists_getLast (hne e (List.mem_cons_self e ms))
    obtain ⟨xl, hxl, hxlt⟩ := hstep_lastTs hbl hX
    obtain ⟨sl', hsl', hslt⟩ := ih (hstep X e) xl hxl
      (fun x hx => hne x (List.mem_cons_of_mem e hx))
    exact ⟨sl', by simpa using hsl', by omega⟩

/-! ## Merge idempotence (C2): takeWhile lemmas -/

theorem takeWhile_takeWhile {α : Type} (p q : α → Bool) (l : List α)
    (himp : ∀ x, p x = true → q x = true) :
    (l.takeWhile q).takeWhile p = l.takeWhile p := by
  induction l with
  | nil => rfl
  | cons a l ih =>
    by_cases hp : p a = true
    · have hq := himp a hp
      rw [List.takeWhile_cons, if_pos hq, List.takeWhile_cons, if_pos hp,
        List.takeWhile_cons, if_pos hp, ih]
    · rw [List.takeWhile_cons]
      by_cases hq : q a = true
      · rw [if_pos hq, List.takeWhile_cons, if_neg hp, List.takeWhile_cons, if_neg hp]
      · rw [if_neg hq, List.takeWhile_cons, if_neg hp]
        rfl

theorem takeWhile_eq_nil_of_all {α : Type} (p : α → Bool) (l : List α)
    (h : ∀ a ∈ l, p a = false) : l.takeWhile p = [] := by
  cases l with
  | nil => rfl
  | cons a l =>
    rw [List.takeWhile_cons, if_neg (by simp [h a (List.mem_cons_self a l)])]

theorem takeWhile_append_nil {α : Type} (p : α → Bool) (X Y : List α)
    (h : Y.takeWhile p = []) : (X ++ Y).takeWhile p = X.takeWhile p := by
  induction X with
  | nil => simpa using h
  | cons a X ih =>
    rw [List.cons_append, List.takeWhile_cons, List.takeWhile_cons]
    by_cases hp : p a = true
    · rw [if_pos hp, if_pos hp, ih]
    · rw [if_neg hp, if_neg hp]

/-- Core of the preservation argument: running the second merge loop (seeded
bucket `B` whose subbars are `W.reverse ++ [hl]`) over the incoming subbars
`bl :: R` (oldest first) never changes the part of the bucket that lies
strictly below any cutoff `γ ≤ bl.tstamp`: every subbar the loop adds sits
at or above `bl.tstamp`. -/
theorem low_preserved_core (R : List Subbar) (bl hl : Subbar) (γ : Int) (B : Bar)
    (W : List Subbar) (hB : B.subbars = W.reverse ++ [hl]) (hγ : γ ≤ bl.tstamp) :
    ((bl :: R).foldl
        (fun nb s => if (nb.subbars.headD hl).tstamp < s.tstamp then nb.add_subbar s else nb)
        B).subbars.dropLast.reverse.takeWhile (fun s => decide (s.tstamp < γ))
      = W.takeWhile (fun s => decide (s.tstamp < γ)) := by
  rw [List.foldl_cons]
  by_cases hc : (B.subbars.headD hl).tstamp < bl.tstamp
  · rw [if_pos hc]
    obtain ⟨A1, hA1, hgt1⟩ := foldl_addIf_shape R hl (B.add_subbar bl)
    rw [hA1]
    have hadd : (B.add_subbar bl).subbars = bl :: B.subbars := rfl
    rw [hadd, hB]
    have hre : A1 ++ (bl :: (W.reverse ++ [hl])) = (A1 ++ (bl :: W.reverse)) ++ [hl] := by
      simp
    rw [hre, List.dropLast_concat, List.reverse_append, List.reverse_cons,
      List.reverse_reverse, List.append_assoc]
    refine takeWhile_append_nil _ _ _ (takeWhile_eq_nil_of_all _ _ ?_)
    intro a ha
    rcases List.mem_append.mp ha with hm | hm
    · rw [List.mem_singleton.mp hm]
      simp only [decide_eq_false_iff_not, not_lt]
      exact hγ
    · have := hgt1 a (List.mem_reverse.mp hm)
      rw [hadd] at this
      simp only [List.headD_cons] at this
      simp only [decide_eq_false_iff_not, not_lt]
      omega
  · rw [if_neg hc]
    obtain ⟨A, hA, hgt⟩ := foldl_addIf_shape R hl B
    rw [hA, hB]
    have hre : A ++ (W.reverse ++ [hl]) = (A ++ W.reverse) ++ [hl] := by
      simp
    rw [hre, List.dropLast_concat, List.reverse_append, List.reverse_reverse]
    refine takeWhile_append_nil _ _ _ (takeWhile_eq_nil_of_all _ _ ?_)
    intro a ha
    have ha' := hgt a (List.mem_reverse.mp ha)
    have hble : bl.tstamp ≤ (B.subbars.headD hl).tstamp := not_lt.mp hc
    simp only [decide_eq_false_iff_not, not_lt]
    omega

/-- The key invariant behind merge idempotence: a bucket merge never touches
the merged bucket's subbars strictly below any cutoff `γ` at or below the
incoming bar's oldest subbar timestamp — reading subbars oldest-first
(excluding the seed), the prefix below `γ` is the stored bucket's prefix
below `γ`. -/
theorem mergeBars_low_preserved (t : Int) (xs es : List Subbar) (hl bl : Subbar) (γ : Int)
    (hel : es.getLast? = some bl) (hγ : γ ≤ bl.tstamp) :
    (mergeBars t xs es hl bl).subbars.dropLast.reverse.takeWhile
        (fun s => decide (s.tstamp < γ))
      = xs.dropLast.reverse.takeWhile (fun s => decide (s.tstamp < γ)) := by
  have hesrev : es.reverse = bl :: es.dropLast.reverse := by
    conv_lhs => rw [← List.dropLast_append_getLast? bl hel]
    simp
  unfold mergeBars
  rw [hesrev, low_preserved_core es.dropLast.reverse bl hl γ _
    (xs.dropLast.reverse.takeWhile (fun s => decide (s.tstamp < bl.tstamp)))
    (by rw [foldl_add_subbar_subbars]; rfl) hγ]
  refine takeWhile_takeWhile _ _ _ ?_
  intro x hx
  simp only [decide_eq_true_eq] at hx ⊢
  omega

/-- The bucket merge reads the stored subbars only through their
oldest-first prefix strictly below the incoming bar's oldest timestamp. -/
theorem mergeBars_congr (t : Int) (xs xs' es : List Subbar) (hl bl : Subbar)
    (h : xs.dropLast.reverse.takeWhile (fun s => decide (s.tstamp < bl.tstamp))
       = xs'.dropLast.reverse.takeWhile (fun s => decide (s.tstamp < bl.tstamp))) :
    mergeBars t xs es hl bl = mergeBars t xs' es hl bl := by
  unfold mergeBars
  rw [h]

/-- Low-part preservation along a chain of merge-type steps: folding a batch
of same-bucket bars whose oldest subbars all sit at or above `γ` never
changes the bucket's oldest-first prefix below `γ`. -/
theorem hstep_foldl_low_preserved (ms : List Bar) : ∀ (X : Bar) (sl : Subbar) (γ : Int),
    X.subbars.getLast? = some sl →
    (∀ x ∈ ms, x.subbars ≠ []) →
    (∀ x ∈ ms, ∀ blx, x.subbars.getLast? = some blx → blx.tstamp ≠ sl.tstamp) →
    (∀ x ∈ ms, ∀ blx, x.subbars.getLast? = some blx → γ ≤ blx.tstamp) →
    (ms.foldl hstep X).subbars.dropLast.reverse.takeWhile (fun s => decide (s.tstamp < γ))
      = X.subbars.dropLast.reverse.takeWhile (fun s => decide (s.tstamp < γ)) := by
  induction ms with
  | nil => intro X sl γ _ _ _ _; rfl
  | cons e ms ih =>
    intro X sl γ hX hne hmt hγ
    obtain ⟨ble, hble⟩ := exists_getLast (hne e (List.mem_cons_self e ms))
    have hmerge := hmt e (List.mem_cons_self e ms) ble hble
    have hstepeq := hstep_merge_eq hble hX hmerge
    simp only [List.foldl_cons]
    rw [ih (hstep X e) sl γ (by rw [hstepeq]; exact mergeBars_getLast _ _ _ _ _)
      (fun x hx => hne x (List.mem_cons_of_mem e hx))
      (fun x hx => hmt x (List.mem_cons_of_mem e hx))
      (fun x hx => hγ x (List.mem_cons_of_mem e hx))]
    rw [hstepeq]
    exact mergeBars_low_preserved _ _ _ _ _ _ hble (hγ e (List.mem_cons_self e ms) ble hble)

/-- On a chain of merge-type steps the literal last (oldest) subbar — the
seed of every rebuilt bucket — is preserved. -/
theorem hstep_foldl_getLast_merge (ms : List Bar) : ∀ (X : Bar) (sl : Subbar),
    X.subbars.getLast? = some sl →
    (∀ x ∈ ms, x.subbars ≠ []) →
    (∀ x ∈ ms, ∀ blx, x.subbars.getLast? = some blx → blx.tstamp ≠ sl.tstamp) →
    (ms.foldl hstep X).subbars.getLast? = some sl := by
  induction ms with
  | nil => intro X sl hX _ _; exact hX
  | cons e ms ih =>
    intro X sl hX hne hmt
    obtain ⟨ble, hble⟩ := exists_getLast (hne e (List.mem_cons_self e ms))
    have hstepeq := hstep_merge_eq hble hX (hmt e (List.mem_cons_self e ms) ble hble)
    simp only [List.foldl_cons]
    exact ih (hstep X e) sl (by rw [hstepeq]; exact mergeBars_getLast _ _ _ _ _)
      (fun x hx => hne x (List.mem_cons_of_mem e hx))
      (fun x hx => hmt x (List.mem_cons_of_mem e hx))

/-- Two same-seed buckets that agree on their oldest-first prefixes below
every future batch timestamp are driven to the same result by a nonempty
chain of merge-type steps. -/
theorem hstep_foldl_congr (ms : List Bar) : ∀ (e X Y : Bar) (sl : Subbar),
    X.subbars.getLast? = some sl → Y.subbars.getLast? = some sl →
    (∀ x ∈ e :: ms, x.subbars ≠ []) →
    (∀ x ∈ e :: ms, ∀ blx, x.subbars.getLast? = some blx → blx.tstamp ≠ sl.tstamp) →
    (∀ γ : Int, (∀ x ∈ e :: ms, ∀ blx, x.subbars.getLast? = some blx → γ ≤ blx.tstamp) →
      X.subbars.dropLast.reverse.takeWhile (fun s => decide (s.tstamp < γ))
        = Y.subbars.dropLast.reverse.takeWhile (fun s => decide (s.tstamp < γ))) →
    (e :: ms).foldl hstep X = (e :: ms).foldl hstep Y := by
  induction ms with
  | nil =>
    intro e X Y sl hX hY hne hmt hlow
    obtain ⟨ble, hble⟩ := exists_getLast (hne e (List.mem_cons_self e []))
    have hmerge := hmt e (List.mem_cons_self e []) ble hble
    have hTW := hlow ble.tstamp ?_
    · simp only [List.foldl_cons, List.foldl_nil]
      rw [hstep_merge_eq hble hX hmerge, hstep_merge_eq hble hY hmerge]
      exact mergeBars_congr _ _ _ _ _ _ hTW
    · intro x hx blx hblx
      have hxe : x = e := List.mem_singleton.mp hx
      subst hxe
      rw [hble] at hblx
      cases hblx
      exact le_refl _
  | cons e2 ms ih =>
    intro e X Y sl hX hY hne hmt hlow
    obtain ⟨ble, hble⟩ := exists_getLast (hne e (List.mem_cons_self e (e2 :: ms)))
    have hmerge := hmt e (List.mem_cons_self e (e2 :: ms)) ble hble
    by_cases hmin :
        ∀ x ∈ e2 :: ms, ∀ blx, x.subbars.getLast? = some blx → ble.tstamp ≤ blx.tstamp
    · have hTW := hlow ble.tstamp ?_
      · have hXe : hstep X e = hstep Y e := by
          rw [hstep_merge_eq hble hX hmerge, hstep_merge_eq hble hY hmerge]
          exact mergeBars_congr _ _ _ _ _ _ hTW
        simp only [List.foldl_cons]
        rw [hXe]
      · intro x hx blx hblx
        rcases List.mem_cons.mp hx with hxe | hxm
        · subst hxe
          rw [hble] at hblx
          cases hblx
          exact le_refl _
        · exact hmin x hxm blx hblx
    · push_neg at hmin
      obtain ⟨xw, hxw, blw, hblw, hwlt⟩ := hmin
      simp only [List.foldl_cons]
      refine ih e2 (hstep X e) (hstep Y e) sl ?_ ?_ ?_ ?_ ?_
      · rw [hstep_merge_eq hble hX hmerge]
        exact mergeBars_getLast _ _ _ _ _
      · rw [hstep_merge_eq hble hY hmerge]
        exact mergeBars_getLast _ _ _ _ _
      · exact fun x hx => hne x (List.mem_cons_of_mem e hx)
      · exact fun x hx => hmt x (List.mem_cons_of_mem e hx)
      · intro γ hcond
        have hγw : γ ≤ blw.tstamp := hcond xw hxw blw hblw
        have hγe : γ ≤ ble.tstamp := by omega
        have h1 : (hstep X e).subbars.dropLast.reverse.takeWhile
            (fun s => decide (s.tstamp < γ))
            = X.subbars.dropLast.reverse.takeWhile (fun s => decide (s.tstamp < γ)) := by
          rw [hstep_merge_eq hble hX hmerge]
          exact mergeBars_low_preserved _ _ _ _ _ _ hble hγe
        have h2 : (hstep Y e).subbars.dropLast.reverse.takeWhile
            (fun s => decide (s.tstamp < γ))
            = Y.subbars.dropLast.reverse.takeWhile (fun s => decide (s.tstamp < γ)) := by
          rw [hstep_merge_eq hble hY hmerge]
          exact mergeBars_low_preserved _ _ _ _ _ _ hble hγe
        rw [h1, h2]
        refine hlow γ ?_
        intro x hx blx hblx
        rcases List.mem_cons.mp hx with hxe | hxm
        · subst hxe
          rw [hble] at hblx
          cases hblx
          exact hγe
        · exact hcond x hxm blx hblx

/-- Every list of same-bucket bars splits at its last replace-type element
(one whose last-subbar timestamp matches the seed's), the suffix beyond it
being purely merge-type. -/
theorem split_last_rep (sl : Subbar) (E : List Bar) :
    (∀ x ∈ E, ∀ blx, x.subbars.getLast? = some blx → blx.tstamp ≠ sl.tstamp) ∨
    ∃ E1 r E2, E = E1 ++ r :: E2 ∧
      (∃ blr, r.subbars.getLast? = some blr ∧ blr.tstamp = sl.tstamp) ∧
      (∀ x ∈ E2, ∀ blx, x.subbars.getLast? = some blx → blx.tstamp ≠ sl.tstamp) := by
  induction E using List.reverseRecOn with
  | nil =>
    left
    intro x hx
    cases hx
  | append_singleton E' y ih =>
    by_cases hy : ∃ bly, y.subbars.getLast? = some bly ∧ bly.tstamp = sl.tstamp
    · right
      refine ⟨E', y, [], rfl, hy, ?_⟩
      intro x hx
      cases hx
    · cases ih with
      | inl h =>
        left
        intro x hx blx hblx
        rcases List.mem_append.mp hx with hm | hm
        · exact h x hm blx hblx
        · have hxy := List.mem_singleton.mp hm
          subst hxy
          exact fun heq => hy ⟨blx, hblx, heq⟩
      | inr h =>
        obtain ⟨E1, r, E2, heq, hr, hE2⟩ := h
        right
        refine ⟨E1, r, E2 ++ [y], by rw [heq]; simp, hr, ?_⟩
        intro x hx blx hblx
        rcases List.mem_append.mp hx with hm | hm
        · exact hE2 x hm blx hblx
        · have hxy := List.mem_singleton.mp hm
          subst hxy
          exact fun heq => hy ⟨blx, hblx, heq⟩

/-- Replay stability for a chain of equal-bucket steps: folding the same
batch once more over the chain's own result changes nothing. Replace-type
steps discard all previous state, so only the purely merge-type suffix
matters, where the low-part preservation argument applies. -/
theorem hstep_fold_replay (E : List Bar) (X : Bar) (sl : Subbar)
    (hX : X.subbars.getLast? = some sl)
    (hne : ∀ x ∈ E, x.subbars ≠ []) :
    E.foldl hstep (E.foldl hstep X) = E.foldl hstep X := by
  rcases split_last_rep sl E with hall | ⟨E1, r, E2, heqE, ⟨blr, hblr, hblrt⟩, hE2⟩
  · cases E with
    | nil => rfl
    | cons e ms =>
      refine hstep_foldl_congr ms e ((e :: ms).foldl hstep X) X sl ?_ hX hne hall ?_
      · exact hstep_foldl_getLast_merge (e :: ms) X sl hX hne hall
      · intro γ hγcond
        exact hstep_foldl_low_preserved (e :: ms) X sl γ hX hne hall hγcond
  · have hW : ∀ (Z : Bar) (zl : Subbar), Z.subbars.getLast? = some zl →
        zl.tstamp = sl.tstamp → E.foldl hstep Z = E2.foldl hstep r := by
      intro Z zl hZ hzt
      rw [heqE, List.foldl_append, List.foldl_cons]
      have hne1 : ∀ x ∈ E1, x.subbars ≠ [] := fun x hx =>
        hne x (by rw [heqE]; exact List.mem_append.mpr (Or.inl hx))
      obtain ⟨zl', hzl', hzlt'⟩ := hstep_foldl_lastTs E1 Z zl hZ hne1
      rw [hstep_replace_eq hblr hzl' (by omega)]
    have hF : E.foldl hstep X = E2.foldl hstep r := hW X sl hX rfl
    have hne2 : ∀ x ∈ E2, x.subbars ≠ [] := fun x hx =>
      hne x (by rw [heqE]; exact List.mem_append.mpr (Or.inr (List.mem_cons_of_mem r hx)))
    obtain ⟨fl, hfl, hflt⟩ := hstep_foldl_lastTs E2 r blr hblr hne2
    rw [hF]
    exact hW (E2.foldl hstep r) fl hfl (by omega)

theorem hstep_ne_nil {h b : Bar} {bl hl : Subbar}
    (hbl : b.subbars.getLast? = some bl) (hhl : h.subbars.getLast? = some hl) :
    (hstep h b).subbars ≠ [] := by
  by_cases heq : bl.tstamp = hl.tstamp
  · rw [hstep_replace_eq hbl hhl heq]
    exact getLast_ne_nil hbl
  · rw [hstep_merge_eq hbl hhl heq]
    exact mergeBars_ne_nil _ _ _ _ _

/-- The incremental merge crashes immediately (on `self.bars[0]`) when the
store is empty and any bar arrives. -/
theorem foldlM_barStep_nil {L out : List Bar}
    (h : L.foldlM barStep [] = some out) : L = [] ∧ out = [] := by
  cases L with
  | nil =>
    refine ⟨rfl, ?_⟩
    rw [List.foldlM_nil] at h
    exact (Option.some.inj h).symm
  | cons b L =>
    rw [List.foldlM_cons] at h
    have hb : barStep [] b = none := rfl
    rw [hb] at h
    simp at h

/-- Processing a batch whose buckets are all at or below the head's
timestamp only ever rewrites the head, by chaining the equal-bucket steps;
the tail is frozen and stale bars are skipped. -/
theorem tailfreeze (L : List Bar) (T0 : Int) : ∀ (H : Bar) (T : List Bar),
    H.tstamp = T0 →
    (∀ b ∈ L, b.tstamp ≤ T0) →
    (∀ b ∈ L, b.subbars ≠ []) →
    (H.subbars ≠ [] ∨ L.filter (fun b => decide (b.tstamp = T0)) = []) →
    L.foldlM barStep (H :: T)
      = some ((L.filter (fun b => decide (b.tstamp = T0))).foldl hstep H :: T) := by
  induction L with
  | nil => intro H T _ _ _ _; rfl
  | cons b L ih =>
    intro H T hHt hle hne hdis
    rw [List.foldlM_cons]
    rcases lt_trichotomy b.tstamp T0 with hlt | heq | hgt
    · have hblt : b.tstamp < H.tstamp := by omega
      have hbar : barStep (H :: T) b = some (H :: T) := by
        simp only [barStep]
        rw [if_pos hblt]
      rw [hbar]
      show L.foldlM barStep (H :: T) = _
      have hbne : ¬ ((fun x : Bar => decide (x.tstamp = T0)) b = true) := by
        simp only [decide_eq_true_eq]
        omega
      have hfeq : (b :: L).filter (fun x => decide (x.tstamp = T0))
          = L.filter (fun x => decide (x.tstamp = T0)) := by
        simp only [List.filter_cons]
        rw [if_neg hbne]
      rw [hfeq]
      refine ih H T hHt (fun x hx => hle x (List.mem_cons_of_mem b hx))
        (fun x hx => hne x (List.mem_cons_of_mem b hx)) ?_
      cases hdis with
      | inl hd => exact Or.inl hd
      | inr hd =>
        rw [hfeq] at hd
        exact Or.inr hd
    · have hHne : H.subbars ≠ [] := by
        cases hdis with
        | inl hd => exact hd
        | inr hd =>
          exfalso
          have hmem : b ∈ (b :: L).filter (fun x => decide (x.tstamp = T0)) :=
            List.mem_filter.mpr ⟨List.mem_cons_self b L, by simp [heq]⟩
          rw [hd] at hmem
          exact absurd hmem (List.not_mem_nil b)
      obtain ⟨bl, hbl⟩ := exists_getLast (hne b (List.mem_cons_self b L))
      obtain ⟨hl, hhl⟩ := exists_getLast hHne
      have hbeq : b.tstamp = H.tstamp := by omega
      have hbar : barStep (H :: T) b = some (hstep H b :: T) := by
        simp only [barStep]
        rw [if_neg (by omega : ¬ b.tstamp < H.tstamp), if_pos hbeq,
          headStep_eq_some hbl hhl]
        rfl
      rw [hbar]
      show L.foldlM barStep (hstep H b :: T) = _
      have hstept : (hstep H b).tstamp = T0 := by
        rw [hstep_tstamp]
        exact heq
      rw [ih (hstep H b) T hstept (fun x hx => hle x (List.mem_cons_of_mem b hx))
        (fun x hx => hne x (List.mem_cons_of_mem b hx))
        (Or.inl (hstep_ne_nil hbl hhl))]
      have hbpos : ((fun x : Bar => decide (x.tstamp = T0)) b = true) := by
        simp [heq]
      have hfeq : (b :: L).filter (fun x => decide (x.tstamp = T0))
          = b :: L.filter (fun x => decide (x.tstamp = T0)) := by
        simp only [List.filter_cons]
        rw [if_pos hbpos]
      rw [hfeq, List.foldl_cons]
    · exfalso
      have := hle b (List.mem_cons_self b L)
      omega

/-- Anatomy of a successful incremental merge over a nonempty store: the
result is a head `Hs` over a frozen-or-extended tail, every batch bucket is
at or below `Hs`'s timestamp, and `Hs` is either (A) the untouched original
head, (B) the chain of equal-bucket steps grown from a freshly inserted
bar, or (C) the chain of equal-bucket steps grown from the original
head. -/
theorem extract (L : List Bar) : ∀ (h : Bar) (t bars1 : List Bar),
    (∀ b ∈ L, b.subbars ≠ []) →
    L.foldlM barStep (h :: t) = some bars1 →
    ∃ Hs Ts, bars1 = Hs :: Ts ∧ h.tstamp ≤ Hs.tstamp ∧ (∀ b ∈ L, b.tstamp ≤ Hs.tstamp) ∧
      ((Hs = h ∧ Ts = t ∧ L.filter (fun b => decide (b.tstamp = Hs.tstamp)) = [])
        ∨ (∃ e1 E', L.filter (fun b => decide (b.tstamp = Hs.tstamp)) = e1 :: E'
            ∧ Hs = E'.foldl hstep e1 ∧ h.tstamp < Hs.tstamp)
        ∨ (Hs = (L.filter (fun b => decide (b.tstamp = Hs.tstamp))).foldl hstep h
            ∧ h.subbars ≠ [] ∧ Hs.tstamp = h.tstamp)) := by
  induction L with
  | nil =>
    intro h t bars1 _ hfold
    rw [List.foldlM_nil] at hfold
    refine ⟨h, t, (Option.some.inj hfold).symm, le_refl _, by simp, Or.inl ⟨rfl, rfl, rfl⟩⟩
  | cons b L ih =>
    intro h t bars1 hne hfold
    rw [List.foldlM_cons] at hfold
    rcases lt_trichotomy b.tstamp h.tstamp with hlt | heq | hgt
    · -- stale bucket: skipped
      have hbar : barStep (h :: t) b = some (h :: t) := by
        simp only [barStep]
        rw [if_pos hlt]
      rw [hbar] at hfold
      replace hfold : L.foldlM barStep (h :: t) = some bars1 := hfold
      obtain ⟨Hs, Ts, hbars, hhle, hallle, hdisj⟩ :=
        ih h t bars1 (fun x hx => hne x (List.mem_cons_of_mem b hx)) hfold
      have hbne : ¬ ((fun x : Bar => decide (x.tstamp = Hs.tstamp)) b = true) := by
        simp only [decide_eq_true_eq]
        omega
      have hfeq : (b :: L).filter (fun x => decide (x.tstamp = Hs.tstamp))
          = L.filter (fun x => decide (x.tstamp = Hs.tstamp)) := by
        simp only [List.filter_cons]
        rw [if_neg hbne]
      refine ⟨Hs, Ts, hbars, hhle, ?_, ?_⟩
      · intro x hx
        rcases List.mem_cons.mp hx with hxb | hxm
        · subst hxb
          omega
        · exact hallle x hxm
      · rcases hdisj with ⟨h1, h2, h3⟩ | ⟨e1, E', hf, hHs, hlt'⟩ | ⟨hHs, hne', ht'⟩
        · exact Or.inl ⟨h1, h2, by rw [hfeq]; exact h3⟩
        · exact Or.inr (Or.inl ⟨e1, E', by rw [hfeq]; exact hf, hHs, hlt'⟩)
        · exact Or.inr (Or.inr ⟨by rw [hfeq]; exact hHs, hne', ht'⟩)
    · -- equal bucket: the head is stepped
      have hbne_sub : b.subbars ≠ [] := hne b (List.mem_cons_self b L)
      obtain ⟨bl, hbl⟩ := exists_getLast hbne_sub
      cases hH1 : headStep h b with
      | none =>
        have hbar : barStep (h :: t) b = none := by
          simp only [barStep]
          rw [if_neg (by omega : ¬ b.tstamp < h.tstamp), if_pos heq, hH1]
          rfl
        rw [hbar] at hfold
        simp at hfold
      | some H1 =>
        have hhne_sub : h.subbars ≠ [] := by
          cases hhl : h.subbars.getLast? with
          | some _ => exact getLast_ne_nil hhl
          | none =>
            exfalso
            unfold headStep at hH1
            rw [hbl, hhl] at hH1
            cases hH1
        obtain ⟨hl, hhl⟩ := exists_getLast hhne_sub
        have hH1eq : H1 = hstep h b := by
          rw [headStep_eq_some hbl hhl] at hH1
          exact (Option.some.inj hH1).symm
        have hbar : barStep (h :: t) b = some (H1 :: t) := by
          simp only [barStep]
          rw [if_neg (by omega : ¬ b.tstamp < h.tstamp), if_pos heq, hH1]
          rfl
        rw [hbar] at hfold
        replace hfold : L.foldlM barStep (H1 :: t) = some bars1 := hfold
        obtain ⟨Hs, Ts, hbars, hhle1, hallle, hdisj⟩ :=
          ih H1 t bars1 (fun x hx => hne x (List.mem_cons_of_mem b hx)) hfold
        have hH1t : H1.tstamp = h.tstamp := by
          rw [hH1eq, hstep_tstamp]
          exact heq
        refine ⟨Hs, Ts, hbars, by omega, ?_, ?_⟩
        · intro x hx
          rcases List.mem_cons.mp hx with hxb | hxm
          · subst hxb
            omega
          · exact hallle x hxm
        · rcases hdisj with ⟨h1, h2, h3⟩ | ⟨e1, E', hf, hHs, hlt'⟩ | ⟨hHs, hne', ht'⟩
          · -- nothing after b touched the head: case (C) with the singleton chain [b]
            have hbpos : ((fun x : Bar => decide (x.tstamp = Hs.tstamp)) b = true) := by
              simp only [decide_eq_true_eq]
              rw [h1, hH1t]
              exact heq
            have hfeq : (b :: L).filter (fun x => decide (x.tstamp = Hs.tstamp))
                = b :: L.filter (fun x => decide (x.tstamp = Hs.tstamp)) := by
              simp only [List.filter_cons]
              rw [if_pos hbpos]
            refine Or.inr (Or.inr ⟨?_, hhne_sub, by rw [h1]; omega⟩)
            rw [hfeq, h3, List.foldl_cons, List.foldl_nil, h1, hH1eq]
          · -- a newer bucket was inserted later: b is stale for that level
            have hbne2 : ¬ ((fun x : Bar => decide (x.tstamp = Hs.tstamp)) b = true) := by
              simp only [decide_eq_true_eq]
              omega
            have hfeq : (b :: L).filter (fun x => decide (x.tstamp = Hs.tstamp))
                = L.filter (fun x => decide (x.tstamp = Hs.tstamp)) := by
              simp only [List.filter_cons]
              rw [if_neg hbne2]
            exact Or.inr (Or.inl ⟨e1, E', by rw [hfeq]; exact hf, hHs, by omega⟩)
          · -- the chain from the original head continues through b
            have hbpos : ((fun x : Bar => decide (x.tstamp = Hs.tstamp)) b = true) := by
              simp only [decide_eq_true_eq]
              omega
            have hfeq : (b :: L).filter (fun x => decide (x.tstamp = Hs.tstamp))
                = b :: L.filter (fun x => decide (x.tstamp = Hs.tstamp)) := by
              simp only [List.filter_cons]
              rw [if_pos hbpos]
            refine Or.inr (Or.inr ⟨?_, hhne_sub, by omega⟩)
            rw [hfeq, List.foldl_cons, ← hH1eq]
            exact hHs
    · -- strictly newer bucket: inserted at the front
      have hbar : barStep (h :: t) b = some (b :: h :: t) := by
        simp only [barStep]
        rw [if_neg (by omega : ¬ b.tstamp < h.tstamp), if_neg (by omega : ¬ b.tstamp = h.tstamp)]
      rw [hbar] at hfold
      replace hfold : L.foldlM barStep (b :: h :: t) = some bars1 := hfold
      obtain ⟨Hs, Ts, hbars, hble, hallle, hdisj⟩ :=
        ih b (h :: t) bars1 (fun x hx => hne x (List.mem_cons_of_mem b hx)) hfold
      refine ⟨Hs, Ts, hbars, by omega, ?_, ?_⟩
      · intro x hx
        rcases List.mem_cons.mp hx with hxb | hxm
        · subst hxb
          omega
        · exact hallle x hxm
      · rcases hdisj with ⟨h1, h2, h3⟩ | ⟨e1, E', hf, hHs, hlt'⟩ | ⟨hHs, hne', ht'⟩
        · -- the inserted bar is the final head: case (B) with the trivial chain
          have hbpos : ((fun x : Bar => decide (x.tstamp = Hs.tstamp)) b = true) := by
            simp only [decide_eq_true_eq]
            rw [h1]
          have hfeq : (b :: L).filter (fun x => decide (x.tstamp = Hs.tstamp))
              = b :: L.filter (fun x => decide (x.tstamp = Hs.tstamp)) := by
            simp only [List.filter_cons]
            rw [if_pos hbpos]
          refine Or.inr (Or.inl ⟨b, [], ?_, by rw [h1]; rfl, by rw [h1]; omega⟩)
          rw [hfeq, h3]
        · -- an even newer bucket took over later
          have hbne2 : ¬ ((fun x : Bar => decide (x.tstamp = Hs.tstamp)) b = true) := by
            simp only [decide_eq_true_eq]
            omega
          have hfeq : (b :: L).filter (fun x => decide (x.tstamp = Hs.tstamp))
              = L.filter (fun x => decide (x.tstamp = Hs.tstamp)) := by
            simp only [List.filter_cons]
            rw [if_neg hbne2]
          exact Or.inr (Or.inl ⟨e1, E', by rw [hfeq]; exact hf, hHs, by omega⟩)
        · -- the chain grown from the inserted bar: case (B)
          have hbpos : ((fun x : Bar => decide (x.tstamp = Hs.tstamp)) b = true) := by
            simp only [decide_eq_true_eq]
            omega
          have hfeq : (b :: L).filter (fun x => decide (x.tstamp = Hs.tstamp))
              = b :: L.filter (fun x => decide (x.tstamp = Hs.tstamp)) := by
            simp only [List.filter_cons]
            rw [if_pos hbpos]
          refine Or.inr (Or.inl ⟨b, L.filter (fun x => decide (x.tstamp = Hs.tstamp)),
            by rw [hfeq], hHs, by omega⟩)

theorem barStep_length {bars bars' : List Bar} {b : Bar}
    (h : barStep bars b = some bars') : bars.length ≤ bars'.length := by
  cases bars with
  | nil => simp [barStep] at h
  | cons hb rest =>
    simp only [barStep] at h
    by_cases h1 : b.tstamp < hb.tstamp
    · rw [if_pos h1] at h
      cases h
      exact le_refl _
    · rw [if_neg h1] at h
      by_cases h2 : b.tstamp = hb.tstamp
      · rw [if_pos h2] at h
        cases hH : headStep hb b with
        | none => rw [hH] at h; cases h
        | some H1 =>
          rw [hH] at h
          simp only [Option.map_some'] at h
          cases h
          simp
      · rw [if_neg h2] at h
        cases h
        simp

theorem foldlM_barStep_length (L : List Bar) : ∀ (bars out : List Bar),
    L.foldlM barStep bars = some out → bars.length ≤ out.length := by
  induction L with
  | nil =>
    intro bars out h
    rw [List.foldlM_nil] at h
    rw [Option.some.inj h]
  | cons b L ih =>
    intro bars out h
    rw [List.foldlM_cons] at h
    cases hstep1 : barStep bars b with
    | none => rw [hstep1] at h; simp at h
    | some bars' =>
      rw [hstep1] at h
      exact le_trans (barStep_length hstep1) (ih bars' out h)

/-- The heart of C2: a successful incremental merge is idempotent — as long
as every incoming bar carries at least one subbar, replaying the very same
batch over the merged store reproduces it exactly. -/
theorem mergeBatch_idempotent (bars batch bars1 : List Bar)
    (hnb : ∀ b ∈ batch, b.subbars ≠ [])
    (h1 : mergeBatch bars batch = some bars1) :
    mergeBatch bars1 batch = some bars1 := by
  unfold mergeBatch at h1 ⊢
  have hnbL : ∀ b ∈ batch.reverse, b.subbars ≠ [] := fun b hb =>
    hnb b (List.mem_reverse.mp hb)
  cases bars with
  | nil =>
    obtain ⟨hL, hout⟩ := foldlM_barStep_nil h1
    rw [hL, List.foldlM_nil]
    rfl
  | cons h t =>
    obtain ⟨Hs, Ts, hbars, hhle, hallle, hdisj⟩ := extract batch.reverse h t bars1 hnbL h1
    subst hbars
    rcases hdisj with ⟨h1', h2', h3'⟩ | ⟨e1, E', hf, hHs, hlt'⟩ | ⟨hHs, hne', ht'⟩
    · rw [tailfreeze batch.reverse Hs.tstamp Hs Ts rfl hallle hnbL (Or.inr h3')]
      rw [h3', List.foldl_nil]
    · have he1mem : e1 ∈ batch.reverse.filter (fun b => decide (b.tstamp = Hs.tstamp)) := by
        rw [hf]
        exact List.mem_cons_self e1 E'
      have hne_e1 : e1.subbars ≠ [] := hnbL e1 (List.mem_of_mem_filter he1mem)
      obtain ⟨bl1, hbl1⟩ := exists_getLast hne_e1
      have hneE' : ∀ x ∈ E', x.subbars ≠ [] := by
        intro x hx
        have hxf : x ∈ batch.reverse.filter (fun b => decide (b.tstamp = Hs.tstamp)) := by
          rw [hf]
          exact List.mem_cons_of_mem e1 hx
        exact hnbL x (List.mem_of_mem_filter hxf)
      obtain ⟨sl', hsl', hslt'⟩ := hstep_foldl_lastTs E' e1 bl1 hbl1 hneE'
      rw [← hHs] at hsl'
      have hHs_ne : Hs.subbars ≠ [] := getLast_ne_nil hsl'
      rw [tailfreeze batch.reverse Hs.tstamp Hs Ts rfl hallle hnbL (Or.inl hHs_ne)]
      rw [hf, List.foldl_cons, hstep_replace_eq hbl1 hsl' (by omega), ← hHs]
    · obtain ⟨sl, hsl⟩ := exists_getLast hne'
      have hneE : ∀ x ∈ batch.reverse.filter (fun b => decide (b.tstamp = Hs.tstamp)),
          x.subbars ≠ [] :=
        fun x hx => hnbL x (List.mem_of_mem_filter hx)
      obtain ⟨sl', hsl', hslt'⟩ := hstep_foldl_lastTs _ h sl hsl hneE
      rw [← hHs] at hsl'
      have hHs_ne : Hs.subbars ≠ [] := getLast_ne_nil hsl'
      rw [tailfreeze batch.reverse Hs.tstamp Hs Ts rfl hallle hnbL (Or.inl hHs_ne)]
      set E := batch.reverse.filter (fun b => decide (b.tstamp = Hs.tstamp)) with hE
      rw [hHs, hstep_fold_replay E h sl hsl hneE]

/-- C2 (amended): with at least 10 bars held, applying `update_bars`'s
incremental merge twice with the same batch yields the same stored sequence
as applying it once, provided every bar of the batch carries at least one
subbar (and the first application succeeds). -/
theorem update_bars_merge_idempotent (bars full full' batch bars1 : List Bar)
    (hlen : 10 ≤ bars.length)
    (hnb : ∀ b ∈ batch, b.subbars ≠ [])
    (h1 : update_bars bars full batch = some bars1) :
    update_bars bars1 full' batch = some bars1 := by
  rw [update_bars, if_neg (Nat.not_lt.mpr hlen)] at h1
  have hlen1 : 10 ≤ bars1.length :=
    le_trans hlen (foldlM_barStep_length batch.reverse bars bars1 h1)
  rw [update_bars, if_neg (Nat.not_lt.mpr hlen1)]
  exact mergeBatch_idempotent bars batch bars1 hnb h1

/-- C2 counterexample: for a batch bar with an *empty* subbar list and a
fresh bucket timestamp, the first incremental merge succeeds (the bar is
inserted untouched), but applying the same batch a second time raises
(IndexError on `b.subbars[-1]`), so idempotence fails for an arbitrary
batch. -/
theorem merge_idempotence_counterexample :
    update_bars demoStore [] [demoEmptyBar] = some (demoEmptyBar :: demoStore) ∧
    update_bars (demoEmptyBar :: demoStore) [] [demoEmptyBar] = none := by
  decide

/-- Witness for C2 (amended): a concrete 10-bar store and a batch refining
its head bucket — one application merges, the second reproduces the same
store. -/
theorem update_bars_merge_idempotent_witness :
    10 ≤ demoStore.length ∧
    update_bars demoStore [] c2Batch = some c2Once ∧
    update_bars c2Once [] c2Batch = some c2Once :=
  ⟨by decide, by decide,
   update_bars_merge_idempotent demoStore [] [] c2Batch c2Once (by decide) (by decide)
     (by decide)⟩

end KuegiBot
